import Mathlib

/-!
Verification of the adaptive-precision interval arithmetic core of `realalg`
(`src/realalg/interval.py` and `src/realalg/algebraic.py`).

The `Interval` layer is embedded directly: Python integers become `Int`,
Python floor division `//` becomes `Int.fdiv` (floor division), and powers of
ten are kept exact.  A closed interval `[lower / 10^precision,
upper / 10^precision]` is a structure of its two scaled endpoints and the scale.

The `RealNumberField` / `RealAlgebraic` layer delegates root isolation and
polynomial ring arithmetic to external engines (sympy and cypari).  Those
engines are outside the repository, so they enter the embedding as explicit
function arguments (an oracle producing the seed interval for the generator,
an engine producing quotient coefficient vectors), and the element height
`length`, which the source computes with floating-point `log10`, is carried as
an abstract integer-valued function of the coefficient vector.
-/

namespace RealAlg

/-- The `Interval` class of `src/realalg/interval.py`: the closed decimal
interval `[lower / 10^precision, upper / 10^precision]` with exact integer
endpoints. -/
structure Interval where
  lower : Int
  upper : Int
  precision : Nat
deriving DecidableEq

namespace Interval

/-- A real point of the interval: `x` lies in
`[lower / 10^precision, upper / 10^precision]`, written multiplied through by
the (positive) scale `10^precision`. -/
def contains (I : Interval) (x : ℝ) : Prop :=
  (I.lower : ℝ) ≤ x * 10 ^ I.precision ∧ x * 10 ^ I.precision ≤ (I.upper : ℝ)

/-- `Interval.from_integer` (interval.py line 39): the exact point interval of
an integer. -/
def from_integer (n : Int) (precision : Nat) : Interval :=
  ⟨n * 10 ^ precision, n * 10 ^ precision, precision⟩

/-- `Interval.from_fraction` (interval.py line 45):
`[(num*10^precision - 1) // den, (num*10^precision + 1) // den]`, both bounds
with Python floor division. -/
def from_fraction (q : ℚ) (precision : Nat) : Interval :=
  ⟨Int.fdiv (q.num * 10 ^ precision - 1) (q.den : Int),
   Int.fdiv (q.num * 10 ^ precision + 1) (q.den : Int),
   precision⟩

/-- `Interval.__add__` (interval.py lines 61-68): bounds are the min/max of the
two endpoint sums. -/
def add (I J : Interval) : Interval :=
  ⟨min (I.lower + J.lower) (I.upper + J.upper),
   max (I.lower + J.lower) (I.upper + J.upper),
   I.precision⟩

/-- `Interval.__neg__` (interval.py line 80). -/
def neg (I : Interval) : Interval :=
  ⟨-I.upper, -I.lower, I.precision⟩

/-- `Interval.__sub__` (interval.py line 78): `self + (-other)`. -/
def sub (I J : Interval) : Interval :=
  I.add J.neg

/-- `Interval.__mul__` (interval.py lines 81-90): the four endpoint cross
products, each floor-divided by `10^precision`, then min/max. -/
def mul (I J : Interval) : Interval :=
  ⟨min (min (min (Int.fdiv (I.lower * J.lower) (10 ^ I.precision))
                 (Int.fdiv (I.upper * J.lower) (10 ^ I.precision)))
            (Int.fdiv (I.lower * J.upper) (10 ^ I.precision)))
       (Int.fdiv (I.upper * J.upper) (10 ^ I.precision)),
   max (max (max (Int.fdiv (I.lower * J.lower) (10 ^ I.precision))
                 (Int.fdiv (I.upper * J.lower) (10 ^ I.precision)))
            (Int.fdiv (I.lower * J.upper) (10 ^ I.precision)))
       (Int.fdiv (I.upper * J.upper) (10 ^ I.precision)),
   I.precision⟩

/-- `Interval.simplify` (interval.py lines 108-112): floor-divide both bounds
by `10^(precision - new_precision)`. -/
def simplify (I : Interval) (new_precision : Nat) : Interval :=
  ⟨Int.fdiv I.lower (10 ^ (I.precision - new_precision)),
   Int.fdiv I.upper (10 ^ (I.precision - new_precision)),
   new_precision⟩

/-- `Interval.sign` (interval.py lines 114-123): `-1` if `upper < 0`, `+1` if
`lower > 0`, else `0`. -/
def sign (I : Interval) : Int :=
  if I.upper < 0 then -1 else if I.lower > 0 then 1 else 0

/-- `Interval.__int__` (interval.py lines 100-101): `upper // 10**precision`
with Python floor division. -/
def toInt (I : Interval) : Int :=
  Int.fdiv I.upper (10 ^ I.precision)

/-- Modelled from the spec: `Interval.__pow__`.  It is used at algebraic.py
line 68 (`I**i`) but its definition is not among the source files; spec
section 4.2 derives the power intervals from the base interval "using repeated
interval multiplication", power `0` being the exact interval for `1` at the
base precision. -/
def pow (I : Interval) : Nat → Interval
  | 0 => from_integer 1 I.precision
  | n + 1 => (pow I n).mul I

/-! ### Floor division helper lemmas -/

lemma fdiv_mul_le (a : Int) {b : Int} (hb : 0 < b) : a.fdiv b * b ≤ a := by
  rw [Int.fdiv_eq_ediv a hb.le]
  exact Int.ediv_mul_le a hb.ne'

lemma lt_fdiv_add_one_mul (a : Int) {b : Int} (hb : 0 < b) :
    a < (a.fdiv b + 1) * b := by
  rw [Int.fdiv_eq_ediv a hb.le]
  exact Int.lt_ediv_add_one_mul_self a hb

lemma fdiv_le_fdiv {a c : Int} {b : Int} (hb : 0 < b) (h : a ≤ c) :
    a.fdiv b ≤ c.fdiv b := by
  rw [Int.fdiv_eq_ediv a hb.le, Int.fdiv_eq_ediv c hb.le]
  exact Int.ediv_le_ediv hb h

/-! ### Containment lemmas shared by the claims -/

lemma add_contains {I J : Interval} {x y : ℝ} (hp : I.precision = J.precision)
    (hx : I.contains x) (hy : J.contains y) : (I.add J).contains (x + y) := by
  obtain ⟨hx1, hx2⟩ := hx
  obtain ⟨hy1, hy2⟩ := hy
  rw [← hp] at hy1 hy2
  constructor
  · show ((min (I.lower + J.lower) (I.upper + J.upper) : Int) : ℝ) ≤ _
    push_cast
    calc (min ((I.lower : ℝ) + J.lower) ((I.upper : ℝ) + J.upper))
        ≤ (I.lower : ℝ) + J.lower := min_le_left _ _
      _ ≤ x * 10 ^ I.precision + y * 10 ^ I.precision := add_le_add hx1 hy1
      _ = (x + y) * 10 ^ I.precision := by ring
  · show (x + y) * (10 : ℝ) ^ (I.add J).precision ≤ _
    show _ ≤ ((max (I.lower + J.lower) (I.upper + J.upper) : Int) : ℝ)
    push_cast
    calc (x + y) * (10 : ℝ) ^ I.precision
        = x * 10 ^ I.precision + y * 10 ^ I.precision := by ring
      _ ≤ (I.upper : ℝ) + J.upper := add_le_add hx2 hy2
      _ ≤ max ((I.lower : ℝ) + J.lower) ((I.upper : ℝ) + J.upper) := le_max_right _ _

lemma neg_contains {I : Interval} {x : ℝ} (hx : I.contains x) :
    I.neg.contains (-x) := by
  obtain ⟨hx1, hx2⟩ := hx
  constructor
  · show ((-I.upper : Int) : ℝ) ≤ -x * 10 ^ I.precision
    push_cast
    nlinarith
  · show -x * (10 : ℝ) ^ I.precision ≤ ((-I.lower : Int) : ℝ)
    push_cast
    nlinarith

/-- Both endpoints of a product of two real bounds-respecting points lie
between the four endpoint cross products. -/
lemma mul_cross_bounds {la ua lb ub x y : ℝ} (h1 : la ≤ x) (h2 : x ≤ ua)
    (h3 : lb ≤ y) (h4 : y ≤ ub) :
    min (min (min (la * lb) (ua * lb)) (la * ub)) (ua * ub) ≤ x * y ∧
    x * y ≤ max (max (max (la * lb) (ua * lb)) (la * ub)) (ua * ub) := by
  constructor
  · rcases le_total 0 y with hy | hy
    · have hxy : la * y ≤ x * y := mul_le_mul_of_nonneg_right h1 hy
      rcases le_total 0 la with hla | hla
      · have h5 : la * lb ≤ la * y := mul_le_mul_of_nonneg_left h3 hla
        have h6 : min (min (min (la * lb) (ua * lb)) (la * ub)) (ua * ub) ≤ la * lb :=
          le_trans (min_le_left _ _) (le_trans (min_le_left _ _) (min_le_left _ _))
        linarith
      · have h5 : la * ub ≤ la * y := mul_le_mul_of_nonpos_left h4 hla
        have h6 : min (min (min (la * lb) (ua * lb)) (la * ub)) (ua * ub) ≤ la * ub :=
          le_trans (min_le_left _ _) (min_le_right _ _)
        linarith
    · have hxy : ua * y ≤ x * y := mul_le_mul_of_nonpos_right h2 hy
      rcases le_total 0 ua with hua | hua
      · have h5 : ua * lb ≤ ua * y := mul_le_mul_of_nonneg_left h3 hua
        have h6 : min (min (min (la * lb) (ua * lb)) (la * ub)) (ua * ub) ≤ ua * lb :=
          le_trans (min_le_left _ _) (le_trans (min_le_left _ _) (min_le_right _ _))
        linarith
      · have h5 : ua * ub ≤ ua * y := mul_le_mul_of_nonpos_left h4 hua
        have h6 : min (min (min (la * lb) (ua * lb)) (la * ub)) (ua * ub) ≤ ua * ub :=
          min_le_right _ _
        linarith
  · rcases le_total 0 y with hy | hy
    · have hxy : x * y ≤ ua * y := mul_le_mul_of_nonneg_right h2 hy
      rcases le_total 0 ua with hua | hua
      · have h5 : ua * y ≤ ua * ub := mul_le_mul_of_nonneg_left h4 hua
        have h6 : ua * ub ≤ max (max (max (la * lb) (ua * lb)) (la * ub)) (ua * ub) :=
          le_max_right _ _
        linarith
      · have h5 : ua * y ≤ ua * lb := mul_le_mul_of_nonpos_left h3 hua
        have h6 : ua * lb ≤ max (max (max (la * lb) (ua * lb)) (la * ub)) (ua * ub) :=
          le_trans (le_max_right _ _) (le_trans (le_max_left _ _) (le_max_left _ _))
        linarith
    · have hxy : x * y ≤ la * y := mul_le_mul_of_nonpos_right h1 hy
      rcases le_total 0 la with hla | hla
      · have h5 : la * y ≤ la * ub := mul_le_mul_of_nonneg_left h4 hla
        have h6 : la * ub ≤ max (max (max (la * lb) (ua * lb)) (la * ub)) (ua * ub) :=
          le_trans (le_max_right _ _) (le_max_left _ _)
        linarith
      · have h5 : la * y ≤ la * lb := mul_le_mul_of_nonpos_left h3 hla
        have h6 : la * lb ≤ max (max (max (la * lb) (ua * lb)) (la * ub)) (ua * ub) :=
          le_trans (le_max_left _ _) (le_trans (le_max_left _ _) (le_max_left _ _))
        linarith

/-- Floor division of the four cross products keeps the lower endpoint below
the true minimum, and keeps the true maximum below the upper endpoint plus one
unit. -/
lemma fdiv_cross_bounds {v1 v2 v3 v4 D : Int} (hD : 0 < D) :
    min (min (min (v1.fdiv D) (v2.fdiv D)) (v3.fdiv D)) (v4.fdiv D) * D ≤
      min (min (min v1 v2) v3) v4 ∧
    max (max (max v1 v2) v3) v4 <
      (max (max (max (v1.fdiv D) (v2.fdiv D)) (v3.fdiv D)) (v4.fdiv D) + 1) * D := by
  constructor
  · have key : ∀ v : Int,
        min (min (min (v1.fdiv D) (v2.fdiv D)) (v3.fdiv D)) (v4.fdiv D) ≤ v.fdiv D →
        min (min (min (v1.fdiv D) (v2.fdiv D)) (v3.fdiv D)) (v4.fdiv D) * D ≤ v := by
      intro v hv
      calc min (min (min (v1.fdiv D) (v2.fdiv D)) (v3.fdiv D)) (v4.fdiv D) * D
          ≤ v.fdiv D * D := mul_le_mul_of_nonneg_right hv hD.le
        _ ≤ v := fdiv_mul_le v hD
    refine le_min (le_min (le_min ?_ ?_) ?_) ?_
    · exact key v1 (le_trans (min_le_left _ _) (le_trans (min_le_left _ _) (min_le_left _ _)))
    · exact key v2 (le_trans (min_le_left _ _) (le_trans (min_le_left _ _) (min_le_right _ _)))
    · exact key v3 (le_trans (min_le_left _ _) (min_le_right _ _))
    · exact key v4 (min_le_right _ _)
  · have key : ∀ v : Int,
        v.fdiv D ≤ max (max (max (v1.fdiv D) (v2.fdiv D)) (v3.fdiv D)) (v4.fdiv D) →
        v < (max (max (max (v1.fdiv D) (v2.fdiv D)) (v3.fdiv D)) (v4.fdiv D) + 1) * D := by
      intro v hv
      calc v < (v.fdiv D + 1) * D := lt_fdiv_add_one_mul v hD
        _ ≤ (max (max (max (v1.fdiv D) (v2.fdiv D)) (v3.fdiv D)) (v4.fdiv D) + 1) * D :=
          mul_le_mul_of_nonneg_right (add_le_add_right hv 1) hD.le
    refine max_lt (max_lt (max_lt ?_ ?_) ?_) ?_
    · exact key v1 (le_trans (le_trans (le_max_left _ _) (le_max_left _ _)) (le_max_left _ _))
    · exact key v2 (le_trans (le_trans (le_max_right _ _) (le_max_left _ _)) (le_max_left _ _))
    · exact key v3 (le_trans (le_max_right _ _) (le_max_left _ _))
    · exact key v4 (le_max_right _ _)

/-- `Interval.__int__` computes the floor of the upper endpoint. -/
lemma toInt_eq_floor (I : Interval) :
    I.toInt = ⌊(I.upper : ℝ) / 10 ^ I.precision⌋ := by
  have hD : (0 : Int) < 10 ^ I.precision := by positivity
  have hDR : (0 : ℝ) < 10 ^ I.precision := by positivity
  have h1 : (I.toInt : ℝ) * 10 ^ I.precision ≤ (I.upper : ℝ) := by
    have h := fdiv_mul_le I.upper hD
    have h2 : ((I.upper.fdiv (10 ^ I.precision) * 10 ^ I.precision : Int) : ℝ) ≤
        (I.upper : ℝ) := Int.cast_le.mpr h
    push_cast at h2
    exact h2
  have h2 : (I.upper : ℝ) < ((I.toInt : ℝ) + 1) * 10 ^ I.precision := by
    have h := lt_fdiv_add_one_mul I.upper hD
    have h3 : (I.upper : ℝ) <
        (((I.upper.fdiv (10 ^ I.precision) + 1) * 10 ^ I.precision : Int) : ℝ) :=
      Int.cast_lt.mpr h
    push_cast at h3
    exact h3
  symm
  rw [Int.floor_eq_iff]
  exact ⟨(le_div_iff₀ hDR).mpr h1, (div_lt_iff₀ hDR).mpr h2⟩

end Interval

/-! ### Coefficient vectors

The element layer stores a reduced coefficient vector extracted from the
cypari modular representation (`RealAlgebraic.__init__`, algebraic.py lines
74-81): the coefficients of `cp_mod.lift()` up to its degree, so with no
trailing zeros, and `[0]` for the zero polynomial. -/

/-- Trailing zeros of a coefficient vector, removed. -/
def trimTrailingZeros : List ℚ → List ℚ
  | [] => []
  | c :: cs =>
    match trimTrailingZeros cs with
    | [] => if c = 0 then [] else [c]
    | t => c :: t

/-- Modelled from the spec: the reduced coefficient vector the external
engine's coefficient extraction produces (algebraic.py lines 77-81):
coefficients up to the lifted polynomial's degree — trailing zeros dropped —
and `[0]` when the list would be empty. -/
def reduceCoeffs (cs : List ℚ) : List ℚ :=
  if trimTrailingZeros cs = [] then [0] else trimTrailingZeros cs

/-- Modelled from the spec: coefficientwise sum of two reduced
representations, the external ring engine's addition on elements of degree
below the field degree (spec section 6, `+` on reduced representations). -/
def padSum : List ℚ → List ℚ → List ℚ
  | [], ys => ys
  | xs, [] => xs
  | x :: xs, y :: ys => (x + y) :: padSum xs ys

/-- The real value of a coefficient vector at a real embedding `x` of the
field generator: `cs[0] + cs[1]*x + cs[2]*x^2 + ...` in Horner form. -/
def listValue (x : ℝ) : List ℚ → ℝ
  | [] => 0
  | c :: cs => (c : ℝ) + x * listValue x cs

lemma getD_trimTrailingZeros (cs : List ℚ) (i : Nat) :
    (trimTrailingZeros cs).getD i 0 = cs.getD i 0 := by
  induction cs generalizing i with
  | nil => rfl
  | cons c cs ih =>
    rw [trimTrailingZeros]
    rcases h : trimTrailingZeros cs with - | ⟨t0, ts⟩
    · by_cases hc : c = 0
      · rw [if_pos hc]
        cases i with
        | zero => simp [hc]
        | succ j =>
          have h2 := ih j
          rw [h] at h2
          simp only [List.getD_nil] at h2
          simp only [List.getD_nil, List.getD_cons_succ]
          exact h2
      · rw [if_neg hc]
        cases i with
        | zero => rfl
        | succ j =>
          have h2 := ih j
          rw [h] at h2
          simp only [List.getD_nil] at h2
          simp only [List.getD_cons_succ, List.getD_nil]
          exact h2
    · cases i with
      | zero => rfl
      | succ j =>
        have := ih j
        rw [h] at this
        simpa using this

lemma getD_reduceCoeffs (cs : List ℚ) (i : Nat) :
    (reduceCoeffs cs).getD i 0 = cs.getD i 0 := by
  rw [reduceCoeffs]
  by_cases h : trimTrailingZeros cs = []
  · rw [if_pos h]
    have h1 := getD_trimTrailingZeros cs i
    rw [h] at h1
    have h2 : ([0] : List ℚ).getD i 0 = 0 := by cases i <;> rfl
    rw [h2, ← h1]
    cases i <;> rfl
  · rw [if_neg h]
    exact getD_trimTrailingZeros cs i

lemma trimTrailingZeros_eq_nil_of_all_zero {cs : List ℚ}
    (h : ∀ i, cs.getD i 0 = 0) : trimTrailingZeros cs = [] := by
  induction cs with
  | nil => rfl
  | cons c cs ih =>
    have hc : c = 0 := h 0
    have ht : trimTrailingZeros cs = [] := ih (fun i => h (i + 1))
    rw [trimTrailingZeros, ht, if_pos hc]

lemma trimTrailingZeros_idem (cs : List ℚ) :
    trimTrailingZeros (trimTrailingZeros cs) = trimTrailingZeros cs := by
  induction cs with
  | nil => rfl
  | cons c cs ih =>
    rw [trimTrailingZeros]
    rcases h : trimTrailingZeros cs with - | ⟨t0, ts⟩
    · by_cases hc : c = 0
      · rw [if_pos hc]; rfl
      · rw [if_neg hc]
        rw [trimTrailingZeros]
        simp [trimTrailingZeros, hc]
    · rw [h] at ih
      rw [trimTrailingZeros]
      rcases h2 : trimTrailingZeros (t0 :: ts) with - | ⟨u0, us⟩
      · rw [h2] at ih; exact absurd ih.symm (List.cons_ne_nil t0 ts)
      · rw [h2] at ih; rw [ih]

lemma reduceCoeffs_zero_singleton : reduceCoeffs [(0 : ℚ)] = [0] := by
  norm_num [reduceCoeffs, trimTrailingZeros]

lemma reduceCoeffs_idem (cs : List ℚ) :
    reduceCoeffs (reduceCoeffs cs) = reduceCoeffs cs := by
  by_cases h : trimTrailingZeros cs = []
  · have h1 : reduceCoeffs cs = [0] := by rw [reduceCoeffs, if_pos h]
    rw [h1, reduceCoeffs_zero_singleton]
  · have h1 : reduceCoeffs cs = trimTrailingZeros cs := by rw [reduceCoeffs, if_neg h]
    rw [h1, reduceCoeffs, trimTrailingZeros_idem, if_neg h]

lemma trimTrailingZeros_congr {as bs : List ℚ}
    (h : ∀ i, as.getD i 0 = bs.getD i 0) :
    trimTrailingZeros as = trimTrailingZeros bs := by
  induction as generalizing bs with
  | nil =>
    have : ∀ i, bs.getD i 0 = 0 := by
      intro i
      have := h i
      simpa using this.symm
    rw [trimTrailingZeros_eq_nil_of_all_zero this]
    rfl
  | cons a as ih =>
    cases bs with
    | nil =>
      refine trimTrailingZeros_eq_nil_of_all_zero ?_
      intro i
      have := h i
      simpa using this
    | cons b bs =>
      have hab : a = b := by have := h 0; simpa using this
      have htail : trimTrailingZeros as = trimTrailingZeros bs :=
        ih (fun i => by have := h (i + 1); simpa using this)
      rw [trimTrailingZeros, trimTrailingZeros, htail, hab]

/-- Two reduced coefficient vectors that agree as functions (with default `0`)
are equal. -/
lemma reduced_ext {as bs : List ℚ} (ha : reduceCoeffs as = as)
    (hb : reduceCoeffs bs = bs) (h : ∀ i, as.getD i 0 = bs.getD i 0) :
    as = bs := by
  rw [← ha, ← hb, reduceCoeffs, reduceCoeffs, trimTrailingZeros_congr h]

lemma getD_padSum (xs ys : List ℚ) (i : Nat) :
    (padSum xs ys).getD i 0 = xs.getD i 0 + ys.getD i 0 := by
  induction xs generalizing ys i with
  | nil => cases ys <;> cases i <;> simp [padSum]
  | cons x xs ih =>
    cases ys with
    | nil => cases i <;> simp [padSum]
    | cons y ys =>
      cases i with
      | zero => rfl
      | succ j => simpa [padSum] using ih ys j

lemma getD_map_neg (ys : List ℚ) (i : Nat) :
    (ys.map (fun q => -q)).getD i 0 = -(ys.getD i 0) := by
  induction ys generalizing i with
  | nil => cases i <;> simp
  | cons y ys ih =>
    cases i with
    | zero => rfl
    | succ j => simpa using ih j

lemma listValue_all_zero {x : ℝ} {cs : List ℚ} (h : ∀ i, cs.getD i 0 = 0) :
    listValue x cs = 0 := by
  induction cs with
  | nil => rfl
  | cons c cs ih =>
    have hc : c = 0 := h 0
    rw [listValue, ih (fun i => h (i + 1)), hc]
    simp

lemma listValue_congr {x : ℝ} {as bs : List ℚ}
    (h : ∀ i, as.getD i 0 = bs.getD i 0) : listValue x as = listValue x bs := by
  induction as generalizing bs with
  | nil =>
    have h0 : ∀ i, bs.getD i 0 = 0 := by
      intro i
      have h1 := h i
      simpa using h1.symm
    have h2 : listValue x ([] : List ℚ) = 0 := rfl
    rw [h2]
    exact (listValue_all_zero h0).symm
  | cons a as ih =>
    cases bs with
    | nil =>
      have h0 : ∀ i, (a :: as).getD i 0 = 0 := by
        intro i
        have h1 := h i
        simpa using h1
      have h2 : listValue x ([] : List ℚ) = 0 := rfl
      rw [h2]
      exact listValue_all_zero h0
    | cons b bs =>
      have hab : a = b := by have h1 := h 0; simpa using h1
      have htail : listValue x as = listValue x bs :=
        ih (fun i => by have h1 := h (i + 1); simpa using h1)
      rw [listValue, listValue, htail, hab]

lemma listValue_reduceCoeffs (x : ℝ) (cs : List ℚ) :
    listValue x (reduceCoeffs cs) = listValue x cs :=
  listValue_congr (fun i => getD_reduceCoeffs cs i)

lemma length_trimTrailingZeros_le (cs : List ℚ) :
    (trimTrailingZeros cs).length ≤ cs.length := by
  induction cs with
  | nil => simp [trimTrailingZeros]
  | cons c cs ih =>
    rw [trimTrailingZeros]
    rcases h : trimTrailingZeros cs with - | ⟨t0, ts⟩
    · by_cases hc : c = 0 <;> simp [hc]
    · rw [h] at ih
      simpa using Nat.succ_le_succ ih

lemma length_reduceCoeffs_le (cs : List ℚ) :
    (reduceCoeffs cs).length ≤ max 1 cs.length := by
  rw [reduceCoeffs]
  by_cases h : trimTrailingZeros cs = []
  · simp [h]
  · rw [if_neg h]
    exact le_max_of_le_right (length_trimTrailingZeros_le cs)

lemma length_padSum (xs ys : List ℚ) :
    (padSum xs ys).length = max xs.length ys.length := by
  induction xs generalizing ys with
  | nil => cases ys <;> simp [padSum]
  | cons x xs ih =>
    cases ys with
    | nil => simp [padSum]
    | cons y ys => simp [padSum, ih, Nat.succ_max_succ]

lemma reduceCoeffs_ne_nil (cs : List ℚ) : reduceCoeffs cs ≠ [] := by
  rw [reduceCoeffs]
  by_cases h : trimTrailingZeros cs = [] <;> simp [h]

/-! ### The number field and element layer (`src/realalg/algebraic.py`)

External collaborators enter as explicit arguments: `oracle n` stands for the
seed interval `Interval.from_string(str(sp.N(self.sp_place, n)), n)` of the
external root approximation (spec section 6, `decimalApproximation`), `lenOf`
stands for the integer `int(length + 1)` computed from the element's
floating-point height `length` (algebraic.py line 82 — floating-point `log10`
has no exact embedding), and `divEngine` stands for the external ring
engine's division of reduced representations. -/

/-- `RealNumberField` (algebraic.py lines 29-47), restricted to the data the
interval engine reads: the defining polynomial's coefficients (constant term
first), the degree (cypari `poldegree`), and the `_bound` safety margin
(algebraic.py line 47, sized from the magnitudes of the generator's powers by
the external engine). -/
structure RealNumberField where
  coefficients : List ℚ
  degree : Nat
  bound : Nat
deriving DecidableEq

/-- The field's cache (`_precision` and `_intervals`, algebraic.py lines
45-46): the precision watermark and the cached generator power intervals. -/
structure Cache where
  watermark : Nat
  powers : List Interval
deriving DecidableEq

/-- The cache as constructed (`_precision = 0`, `_intervals = None`): the
watermark is `0`, so the empty interval list is never read before being
replaced. -/
def Cache.init : Cache := ⟨0, []⟩

/-- `RealNumberField.intervals` (algebraic.py lines 58-69) as a function of
the explicit cache state: if the requested precision exceeds the watermark,
recompute the power intervals from the oracle's seed interval at working
precision `precision + degree*bound + 1` and replace the cache; in both cases
return the cached powers simplified down to the requested precision. -/
def RealNumberField.intervalsWith (F : RealNumberField) (oracle : Nat → Interval)
    (c : Cache) (precision : Nat) : List Interval × Cache :=
  if c.watermark < precision then
    let pows := (List.range F.degree).map
      (fun i => (oracle (precision + F.degree * F.bound + 1)).pow i)
    (pows.map (fun I => I.simplify precision), ⟨precision, pows⟩)
  else
    (c.powers.map (fun I => I.simplify precision), c)

/-- `RealAlgebraic` (algebraic.py lines 72-82): an element of a number field,
as the owning field and the reduced coefficient vector extracted from the
cypari modular representation. -/
structure RealAlgebraic where
  field : RealNumberField
  coefficients : List ℚ
deriving DecidableEq

/-- Modelled from the spec: `RealAlgebraic.from_rational` (algebraic.py lines
87-90) embeds a rational as the constant reduced representation. -/
def RealAlgebraic.from_rational (F : RealNumberField) (q : ℚ) : RealAlgebraic :=
  ⟨F, reduceCoeffs [q]⟩

/-- Modelled from the spec: `RealAlgebraic.__add__` on two elements of the
same field (algebraic.py lines 95-101) delegates `self.cp_mod + other.cp_mod`
to the external ring engine; on reduced representations of degree below the
field degree this is the coefficientwise sum, re-extracted. -/
def RealAlgebraic.add (x y : RealAlgebraic) : RealAlgebraic :=
  ⟨x.field, reduceCoeffs (padSum x.coefficients y.coefficients)⟩

/-- Modelled from the spec: `RealAlgebraic.__neg__` (algebraic.py lines
106-107), `-self.cp_mod`: the coefficientwise negation, re-extracted. -/
def RealAlgebraic.neg (x : RealAlgebraic) : RealAlgebraic :=
  ⟨x.field, reduceCoeffs (x.coefficients.map (fun q => -q))⟩

/-- `RealAlgebraic.__sub__` (algebraic.py lines 104-105): `self + (-other)`. -/
def RealAlgebraic.sub (x y : RealAlgebraic) : RealAlgebraic :=
  x.add y.neg

/-- `RealAlgebraic.interval` (algebraic.py lines 156-162): working precision
`int(precision + length + 1)` (= `precision + lenOf coefficients` here), the
field's power intervals at that precision, one `from_fraction` interval per
coefficient, the weighted interval sum (Python `sum` starts from the exact
zero interval), simplified back to the requested precision.  Returns the
interval together with the updated cache. -/
def RealAlgebraic.intervalWith (lenOf : List ℚ → Nat) (oracle : Nat → Interval)
    (x : RealAlgebraic) (c : Cache) (precision : Nat) : Interval × Cache :=
  let wp := precision + lenOf x.coefficients
  let pr := x.field.intervalsWith oracle c wp
  let s := (List.zipWith Interval.mul
    (x.coefficients.map (fun q => Interval.from_fraction q wp)) pr.1).foldl
    Interval.add (Interval.from_integer 0 wp)
  (s.simplify precision, pr.2)

/-- `RealAlgebraic.sign` (algebraic.py lines 170-172):
`self.interval(2*int(self.length+1)).sign()`. -/
def RealAlgebraic.signWith (lenOf : List ℚ → Nat) (oracle : Nat → Interval)
    (x : RealAlgebraic) (c : Cache) : Int × Cache :=
  let r := x.intervalWith lenOf oracle c (2 * lenOf x.coefficients)
  (r.1.sign, r.2)

/-- `RealAlgebraic.__int__` (algebraic.py lines 166-167):
`int(self.interval(2*int(self.length+1)))`. -/
def RealAlgebraic.toIntWith (lenOf : List ℚ → Nat) (oracle : Nat → Interval)
    (x : RealAlgebraic) (c : Cache) : Int × Cache :=
  let r := x.intervalWith lenOf oracle c (2 * lenOf x.coefficients)
  (r.1.toInt, r.2)

/-- `RealAlgebraic.__eq__` (algebraic.py lines 173-174):
`(self - other).sign() == 0`. -/
def RealAlgebraic.eqWith (lenOf : List ℚ → Nat) (oracle : Nat → Interval)
    (x y : RealAlgebraic) (c : Cache) : Bool × Cache :=
  let r := (x.sub y).signWith lenOf oracle c
  (decide (r.1 = 0), r.2)

/-- `RealAlgebraic.__gt__` (algebraic.py lines 175-176):
`(self - other).sign() == +1`. -/
def RealAlgebraic.gtWith (lenOf : List ℚ → Nat) (oracle : Nat → Interval)
    (x y : RealAlgebraic) (c : Cache) : Bool × Cache :=
  let r := (x.sub y).signWith lenOf oracle c
  (decide (r.1 = 1), r.2)

/-- `RealAlgebraic.__truediv__` (algebraic.py lines 122-130) for an element
divisor.  Python evaluates `other == 0` first — `__eq__` computes
`(other - 0).sign()`, the integer `0` promoted into the field, i.e. the sign
of `other + from_rational(field, 0)` — and raises `ZeroDivisionError` when
that sign is `0`; otherwise `self.cp_mod / other.cp_mod` is delegated to the
external ring engine, modelled from the spec as `divEngine` producing the
quotient's reduced coefficients. -/
def RealAlgebraic.truedivWith (lenOf : List ℚ → Nat) (oracle : Nat → Interval)
    (divEngine : List ℚ → List ℚ → List ℚ) (x y : RealAlgebraic) (c : Cache) :
    Except String RealAlgebraic × Cache :=
  let z := y.add (RealAlgebraic.from_rational y.field 0)
  let r := z.signWith lenOf oracle c
  if r.1 = 0 then (Except.error "division by zero", r.2)
  else (Except.ok ⟨x.field, divEngine x.coefficients y.coefficients⟩, r.2)

/-- `RealAlgebraic.__hash__` (algebraic.py lines 177-178) returns
`hash(tuple(self.coefficients))`: the data the hash is computed from is the
coefficient tuple and nothing else. -/
def RealAlgebraic.hashData (x : RealAlgebraic) : List ℚ :=
  x.coefficients

/-- Claim C8: for two intervals of equal precision, any real points `a` and
`b` of them have `a + b` in the interval sum, `a - b` in the interval
difference, and `-a` in the interval negation.  Addition adds the lower and
the upper endpoints exactly, so containment is exact here. -/
theorem C8_add_sub_neg_containment (A B : Interval) (a b : ℝ)
    (hp : A.precision = B.precision) (ha : A.contains a) (hb : B.contains b) :
    (A.add B).contains (a + b) ∧ (A.sub B).contains (a - b) ∧
    A.neg.contains (-a) := by
  refine ⟨Interval.add_contains hp ha hb, ?_, Interval.neg_contains ha⟩
  have hpn : A.precision = B.neg.precision := hp
  have h : (A.add B.neg).contains (a + -b) :=
    Interval.add_contains hpn ha (Interval.neg_contains hb)
  rw [Interval.sub, sub_eq_add_neg]
  exact h

/-- Claim C8 witness at the concrete intervals `[0.1, 0.2]`, `[0.3, 0.5]` and
the points `0.15`, `0.4`. -/
theorem C8_witness :
    ((Interval.mk 1 2 1).add (Interval.mk 3 5 1)).contains ((15/100 : ℝ) + 40/100) ∧
    ((Interval.mk 1 2 1).sub (Interval.mk 3 5 1)).contains ((15/100 : ℝ) - 40/100) ∧
    (Interval.mk 1 2 1).neg.contains (-(15/100 : ℝ)) :=
  C8_add_sub_neg_containment (Interval.mk 1 2 1) (Interval.mk 3 5 1) (15/100) (40/100)
    rfl (by constructor <;> norm_num [Interval.contains])
    (by constructor <;> norm_num [Interval.contains])

/-- Claim C2 (amended): interval multiplication floor-divides all four cross
products, including the two that decide the upper endpoint, so exact
containment fails by up to one unit in the last place at the top.  What holds:
for equal-precision intervals and real points `a` of `A` and `b` of `B`, the
product satisfies `lower ≤ a*b*10^p < upper + 1`, i.e. `a*b` lies in the
half-open interval `[lower/10^p, (upper+1)/10^p)`. -/
theorem C2_mul_containment_amended (A B : Interval) (a b : ℝ)
    (hp : A.precision = B.precision) (ha : A.contains a) (hb : B.contains b) :
    (((A.mul B).lower : ℝ) ≤ a * b * 10 ^ (A.mul B).precision) ∧
    (a * b * 10 ^ (A.mul B).precision < ((A.mul B).upper : ℝ) + 1) := by
  obtain ⟨ha1, ha2⟩ := ha
  obtain ⟨hb1, hb2⟩ := hb
  rw [← hp] at hb1 hb2
  have hD : (0 : Int) < 10 ^ A.precision := by positivity
  have hDR : (0 : ℝ) < 10 ^ A.precision := by positivity
  have hcross := Interval.mul_cross_bounds ha1 ha2 hb1 hb2
  have keyLow : ∀ v : Int, (A.mul B).lower ≤ v.fdiv (10 ^ A.precision) →
      ((A.mul B).lower : ℝ) * 10 ^ A.precision ≤ (v : ℝ) := by
    intro v hv
    have h1 : (A.mul B).lower * 10 ^ A.precision ≤ v :=
      le_trans (mul_le_mul_of_nonneg_right hv hD.le) (Interval.fdiv_mul_le v hD)
    have h2 : (((A.mul B).lower * 10 ^ A.precision : Int) : ℝ) ≤ (v : ℝ) :=
      Int.cast_le.mpr h1
    push_cast at h2
    exact h2
  have keyUp : ∀ v : Int, v.fdiv (10 ^ A.precision) ≤ (A.mul B).upper →
      (v : ℝ) < (((A.mul B).upper : ℝ) + 1) * 10 ^ A.precision := by
    intro v hv
    have h1 : v < ((A.mul B).upper + 1) * 10 ^ A.precision :=
      lt_of_lt_of_le (Interval.lt_fdiv_add_one_mul v hD)
        (mul_le_mul_of_nonneg_right (add_le_add_right hv 1) hD.le)
    have h2 : (v : ℝ) < ((((A.mul B).upper + 1) * 10 ^ A.precision : Int) : ℝ) :=
      Int.cast_lt.mpr h1
    push_cast at h2
    exact h2
  have hml : (A.mul B).lower =
      min (min (min ((A.lower * B.lower).fdiv (10 ^ A.precision))
        ((A.upper * B.lower).fdiv (10 ^ A.precision)))
        ((A.lower * B.upper).fdiv (10 ^ A.precision)))
        ((A.upper * B.upper).fdiv (10 ^ A.precision)) := rfl
  have hmu : (A.mul B).upper =
      max (max (max ((A.lower * B.lower).fdiv (10 ^ A.precision))
        ((A.upper * B.lower).fdiv (10 ^ A.precision)))
        ((A.lower * B.upper).fdiv (10 ^ A.precision)))
        ((A.upper * B.upper).fdiv (10 ^ A.precision)) := rfl
  have hk1 := keyLow (A.lower * B.lower) (by
    rw [hml]
    exact le_trans (min_le_left _ _) (le_trans (min_le_left _ _) (min_le_left _ _)))
  have hk2 := keyLow (A.upper * B.lower) (by
    rw [hml]
    exact le_trans (min_le_left _ _) (le_trans (min_le_left _ _) (min_le_right _ _)))
  have hk3 := keyLow (A.lower * B.upper) (by
    rw [hml]
    exact le_trans (min_le_left _ _) (min_le_right _ _))
  have hk4 := keyLow (A.upper * B.upper) (by
    rw [hml]
    exact min_le_right _ _)
  have hK1 := keyUp (A.lower * B.lower) (by
    rw [hmu]
    exact le_trans (le_trans (le_max_left _ _) (le_max_left _ _)) (le_max_left _ _))
  have hK2 := keyUp (A.upper * B.lower) (by
    rw [hmu]
    exact le_trans (le_trans (le_max_right _ _) (le_max_left _ _)) (le_max_left _ _))
  have hK3 := keyUp (A.lower * B.upper) (by
    rw [hmu]
    exact le_trans (le_max_right _ _) (le_max_left _ _))
  have hK4 := keyUp (A.upper * B.upper) (by
    rw [hmu]
    exact le_max_right _ _)
  push_cast at hk1 hk2 hk3 hk4 hK1 hK2 hK3 hK4
  constructor
  · show ((A.mul B).lower : ℝ) ≤ a * b * 10 ^ A.precision
    refine le_of_mul_le_mul_right ?_ hDR
    calc ((A.mul B).lower : ℝ) * 10 ^ A.precision
        ≤ min (min (min ((A.lower : ℝ) * (B.lower : ℝ)) ((A.upper : ℝ) * (B.lower : ℝ)))
            ((A.lower : ℝ) * (B.upper : ℝ))) ((A.upper : ℝ) * (B.upper : ℝ)) :=
          le_min (le_min (le_min hk1 hk2) hk3) hk4
      _ ≤ (a * 10 ^ A.precision) * (b * 10 ^ A.precision) := hcross.1
      _ = a * b * 10 ^ A.precision * 10 ^ A.precision := by ring
  · show a * b * 10 ^ A.precision < ((A.mul B).upper : ℝ) + 1
    refine lt_of_mul_lt_mul_right ?_ hDR.le
    calc a * b * 10 ^ A.precision * 10 ^ A.precision
        = (a * 10 ^ A.precision) * (b * 10 ^ A.precision) := by ring
      _ ≤ max (max (max ((A.lower : ℝ) * (B.lower : ℝ)) ((A.upper : ℝ) * (B.lower : ℝ)))
            ((A.lower : ℝ) * (B.upper : ℝ))) ((A.upper : ℝ) * (B.upper : ℝ)) := hcross.2
      _ < (((A.mul B).upper : ℝ) + 1) * 10 ^ A.precision :=
          max_lt (max_lt (max_lt hK1 hK2) hK3) hK4

/-- Claim C2 witness at the concrete intervals `[0.1, 0.2]`, `[-0.3, 0.5]` and
the points `0.15`, `0.25`. -/
theorem C2_witness :
    ((((Interval.mk 1 2 1).mul (Interval.mk (-3) 5 1)).lower : ℝ) ≤
      (15/100 : ℝ) * (25/100) * 10 ^ ((Interval.mk 1 2 1).mul (Interval.mk (-3) 5 1)).precision) ∧
    ((15/100 : ℝ) * (25/100) * 10 ^ ((Interval.mk 1 2 1).mul (Interval.mk (-3) 5 1)).precision <
      (((Interval.mk 1 2 1).mul (Interval.mk (-3) 5 1)).upper : ℝ) + 1) :=
  C2_mul_containment_amended (Interval.mk 1 2 1) (Interval.mk (-3) 5 1) (15/100) (25/100)
    rfl (by constructor <;> norm_num [Interval.contains])
    (by constructor <;> norm_num [Interval.contains])

/-- Claim C2 counterexample: the point `0.1` lies in the interval `[0.1, 0.1]`
of precision 1, but `0.1 * 0.1 = 0.01` does not lie in the computed product
`[0.1,0.1] * [0.1,0.1] = [0.0, 0.0]`: floor division of `1*1` by `10` drops
the upper endpoint below the true product. -/
theorem C2_counterexample :
    (Interval.mk 1 1 1).contains (1/10 : ℝ) ∧
    (Interval.mk 1 1 1).mul (Interval.mk 1 1 1) = Interval.mk 0 0 1 ∧
    ¬ ((Interval.mk 1 1 1).mul (Interval.mk 1 1 1)).contains ((1/10 : ℝ) * (1/10)) := by
  have h : (Interval.mk 1 1 1).mul (Interval.mk 1 1 1) = Interval.mk 0 0 1 := by decide
  refine ⟨by norm_num [Interval.contains], h, ?_⟩
  rw [h]
  intro hc
  obtain ⟨h1, h2⟩ := hc
  norm_num at h2

/-- Claim C3 (code bug): `simplify` floor-divides both bounds, so the widened
interval can fail to contain points of the original, contradicting both the
claim and the docstring of `simplify` ("Return a larger interval containing
this of the given precision").  Concretely `[0.19, 0.19].simplify(1) = [0.1,
0.1]`, which does not contain `0.19`.  The equal-precision case of the claim
does hold: `simplify` at the same precision divides by `10^0` and returns the
interval unchanged. -/
theorem C3_simplify_bug :
    (Interval.mk 19 19 2).contains (19/100 : ℝ) ∧
    (Interval.mk 19 19 2).simplify 1 = Interval.mk 1 1 1 ∧
    ¬ ((Interval.mk 19 19 2).simplify 1).contains (19/100 : ℝ) ∧
    (Interval.mk 19 19 2).simplify 2 = Interval.mk 19 19 2 := by
  refine ⟨by norm_num [Interval.contains], by decide, ?_, by decide⟩
  have h : (Interval.mk 19 19 2).simplify 1 = Interval.mk 1 1 1 := by decide
  rw [h]
  intro hc
  obtain ⟨h1, h2⟩ := hc
  norm_num at h2

/-- Claim C4 (amended): `from_fraction` floor-divides both
`num*10^p - 1` and `num*10^p + 1` by the denominator (the second is a floor,
not the ceiling the spec asserts), so true containment of `p/q` can fail by
less than one unit in the last place at the top.  What holds: `lower ≤
q*10^p < upper + 1`, i.e. `q` lies in `[lower/10^p, (upper+1)/10^p)`. -/
theorem C4_from_fraction_amended (q : ℚ) (p : Nat) :
    (((Interval.from_fraction q p).lower : ℝ) ≤ (q : ℝ) * 10 ^ p) ∧
    ((q : ℝ) * 10 ^ p < ((Interval.from_fraction q p).upper : ℝ) + 1) := by
  have hden : (0 : Int) < (q.den : Int) := by exact_mod_cast q.den_pos
  have hlow : Int.fdiv (q.num * 10 ^ p - 1) (q.den : Int) * (q.den : Int) ≤
      q.num * 10 ^ p := by
    have h := Interval.fdiv_mul_le (q.num * 10 ^ p - 1) hden
    linarith
  have hup : q.num * 10 ^ p <
      (Int.fdiv (q.num * 10 ^ p + 1) (q.den : Int) + 1) * (q.den : Int) := by
    have h := Interval.lt_fdiv_add_one_mul (q.num * 10 ^ p + 1) hden
    linarith
  have hdR : (0 : ℝ) < (q.den : ℝ) := by exact_mod_cast hden
  have hqnum : (q : ℝ) * (q.den : ℝ) = (q.num : ℝ) := by
    rw [Rat.cast_def]
    field_simp
  constructor
  · refine le_of_mul_le_mul_right ?_ hdR
    have hlowR : ((Int.fdiv (q.num * 10 ^ p - 1) (q.den : Int)) : ℝ) * (q.den : ℝ) ≤
        (q.num : ℝ) * 10 ^ p := by exact_mod_cast hlow
    calc ((Interval.from_fraction q p).lower : ℝ) * (q.den : ℝ)
        = ((Int.fdiv (q.num * 10 ^ p - 1) (q.den : Int)) : ℝ) * (q.den : ℝ) := rfl
      _ ≤ (q.num : ℝ) * 10 ^ p := hlowR
      _ = (q : ℝ) * 10 ^ p * (q.den : ℝ) := by rw [← hqnum]; ring
  · refine lt_of_mul_lt_mul_right ?_ hdR.le
    have hupR : (q.num : ℝ) * 10 ^ p <
        (((Int.fdiv (q.num * 10 ^ p + 1) (q.den : Int)) : ℝ) + 1) * (q.den : ℝ) := by
      exact_mod_cast hup
    calc (q : ℝ) * 10 ^ p * (q.den : ℝ) = (q.num : ℝ) * 10 ^ p := by rw [← hqnum]; ring
      _ < (((Interval.from_fraction q p).upper : ℝ) + 1) * (q.den : ℝ) := hupR

/-- Claim C4 counterexample: `from_fraction(1/3, 1)` is the point interval
`[0.3, 0.3]` (both divisions round toward minus infinity), and it does not
contain `1/3`. -/
theorem C4_counterexample :
    Interval.from_fraction (1/3 : ℚ) 1 = Interval.mk 3 3 1 ∧
    ¬ (Interval.from_fraction (1/3 : ℚ) 1).contains (((1/3 : ℚ) : ℝ)) := by
  have hn : (1/3 : ℚ).num = 1 := by norm_num
  have hd : (1/3 : ℚ).den = 3 := by norm_num
  have h : Interval.from_fraction (1/3 : ℚ) 1 = Interval.mk 3 3 1 := by
    simp only [Interval.from_fraction, hn, hd]
    decide
  refine ⟨h, ?_⟩
  rw [h]
  intro hc
  obtain ⟨h1, h2⟩ := hc
  norm_num at h2

/-- Claim C7: the cached precision watermark never decreases.  A call with
requested precision at or below the watermark leaves the cache untouched (no
recomputation) and returns the cached power intervals simplified to exactly
the requested precision; a call above the watermark replaces the cache with
the freshly derived power intervals and raises the watermark to the request.
Every returned interval carries exactly the requested precision.  The
hypothesis `1 ≤ p` is the code's assertion `precision > 0`. -/
theorem C7_cache_watermark_monotone (F : RealNumberField) (oracle : Nat → Interval)
    (c : Cache) (p : Nat) (hp : 1 ≤ p) :
    c.watermark ≤ (F.intervalsWith oracle c p).2.watermark ∧
    (p ≤ c.watermark →
      (F.intervalsWith oracle c p).2 = c ∧
      (F.intervalsWith oracle c p).1 = c.powers.map (fun I => I.simplify p)) ∧
    (c.watermark < p →
      (F.intervalsWith oracle c p).2.watermark = p ∧
      (F.intervalsWith oracle c p).2.powers = (List.range F.degree).map
        (fun i => (oracle (p + F.degree * F.bound + 1)).pow i) ∧
      (F.intervalsWith oracle c p).1 =
        (F.intervalsWith oracle c p).2.powers.map (fun I => I.simplify p)) ∧
    (∀ J ∈ (F.intervalsWith oracle c p).1, J.precision = p) := by
  by_cases h : c.watermark < p
  · refine ⟨?_, ?_, ?_, ?_⟩
    · simp only [RealNumberField.intervalsWith, if_pos h]
      exact le_of_lt h
    · intro hle
      omega
    · intro h2
      simp only [RealNumberField.intervalsWith, if_pos h]
      exact ⟨trivial, trivial, trivial⟩
    · intro J hJ
      simp only [RealNumberField.intervalsWith, if_pos h, List.mem_map] at hJ
      obtain ⟨I, -, hI⟩ := hJ
      rw [← hI]
      rfl
  · refine ⟨?_, ?_, ?_, ?_⟩
    · simp only [RealNumberField.intervalsWith, if_neg h]
      exact le_refl _
    · intro h2
      simp only [RealNumberField.intervalsWith, if_neg h]
      exact ⟨trivial, trivial⟩
    · intro h2
      omega
    · intro J hJ
      simp only [RealNumberField.intervalsWith, if_neg h, List.mem_map] at hJ
      obtain ⟨I, -, hI⟩ := hJ
      rw [← hI]
      rfl

/-- Claim C7 witness: the field QQ[x]/(x^2 - 2) with degree 2 and bound 1, an
arbitrary oracle, the empty initial cache and requested precision 1. -/
theorem C7_witness :
    Cache.init.watermark ≤
      ((⟨[(-2 : ℚ), 0, 1], 2, 1⟩ : RealNumberField).intervalsWith
        (fun n => ⟨0, 1, n⟩) Cache.init 1).2.watermark ∧
    (1 ≤ Cache.init.watermark →
      ((⟨[(-2 : ℚ), 0, 1], 2, 1⟩ : RealNumberField).intervalsWith
        (fun n => ⟨0, 1, n⟩) Cache.init 1).2 = Cache.init ∧
      ((⟨[(-2 : ℚ), 0, 1], 2, 1⟩ : RealNumberField).intervalsWith
        (fun n => ⟨0, 1, n⟩) Cache.init 1).1 =
        Cache.init.powers.map (fun I => I.simplify 1)) ∧
    (Cache.init.watermark < 1 →
      ((⟨[(-2 : ℚ), 0, 1], 2, 1⟩ : RealNumberField).intervalsWith
        (fun n => ⟨0, 1, n⟩) Cache.init 1).2.watermark = 1 ∧
      ((⟨[(-2 : ℚ), 0, 1], 2, 1⟩ : RealNumberField).intervalsWith
        (fun n => ⟨0, 1, n⟩) Cache.init 1).2.powers = (List.range 2).map
        (fun i => ((fun n => (⟨0, 1, n⟩ : Interval)) (1 + 2 * 1 + 1)).pow i) ∧
      ((⟨[(-2 : ℚ), 0, 1], 2, 1⟩ : RealNumberField).intervalsWith
        (fun n => ⟨0, 1, n⟩) Cache.init 1).1 =
        ((⟨[(-2 : ℚ), 0, 1], 2, 1⟩ : RealNumberField).intervalsWith
          (fun n => ⟨0, 1, n⟩) Cache.init 1).2.powers.map (fun I => I.simplify 1)) ∧
    (∀ J ∈ ((⟨[(-2 : ℚ), 0, 1], 2, 1⟩ : RealNumberField).intervalsWith
        (fun n => ⟨0, 1, n⟩) Cache.init 1).1, J.precision = 1) :=
  C7_cache_watermark_monotone ⟨[(-2 : ℚ), 0, 1], 2, 1⟩ (fun n => ⟨0, 1, n⟩)
    Cache.init 1 (by decide)

/-- Claim C6: dividing by an element raises the division-by-zero error
exactly when the divisor's computed `sign()` is `0` (the code's test for
"exact value zero", spec section 4.3), and for every divisor of nonzero
computed sign, division succeeds with the engine's quotient as an element of
the dividend's field.  The hypothesis is the representation invariant every
constructed element satisfies: its coefficient vector is reduced. -/
theorem C6_truediv_zero_divisor_iff (lenOf : List ℚ → Nat) (oracle : Nat → Interval)
    (divEngine : List ℚ → List ℚ → List ℚ) (x y : RealAlgebraic) (c : Cache)
    (hyred : reduceCoeffs y.coefficients = y.coefficients) :
    ((RealAlgebraic.truedivWith lenOf oracle divEngine x y c).1 =
        Except.error "division by zero" ↔ (y.signWith lenOf oracle c).1 = 0) ∧
    ((y.signWith lenOf oracle c).1 ≠ 0 →
      (RealAlgebraic.truedivWith lenOf oracle divEngine x y c).1 =
        Except.ok ⟨x.field, divEngine x.coefficients y.coefficients⟩) := by
  have hz : y.add (RealAlgebraic.from_rational y.field 0) = y := by
    have hcoef : reduceCoeffs (padSum y.coefficients (reduceCoeffs [0])) =
        y.coefficients := by
      rw [reduceCoeffs_zero_singleton]
      refine reduced_ext (reduceCoeffs_idem _) hyred ?_
      intro i
      rw [getD_reduceCoeffs, getD_padSum]
      have h0 : ([(0 : ℚ)]).getD i 0 = 0 := by cases i <;> rfl
      rw [h0, add_zero]
    show (⟨y.field, reduceCoeffs (padSum y.coefficients (reduceCoeffs [0]))⟩ :
      RealAlgebraic) = y
    rw [hcoef]
  by_cases h : (y.signWith lenOf oracle c).1 = 0 <;>
    simp [RealAlgebraic.truedivWith, hz, h]

/-- Claim C6 witness: in the field QQ[x]/(x), dividing the element `1` by the
element `3` (reduced vector `[3]`), with concrete oracle, length function and
engine. -/
theorem C6_witness :
    ((RealAlgebraic.truedivWith (fun _ => 1) (fun n => ⟨0, 1, n⟩) (fun _ _ => [5])
        ⟨⟨[0, 1], 1, 1⟩, [1]⟩ ⟨⟨[0, 1], 1, 1⟩, [3]⟩ Cache.init).1 =
        Except.error "division by zero" ↔
      ((⟨⟨[0, 1], 1, 1⟩, [3]⟩ : RealAlgebraic).signWith (fun _ => 1)
        (fun n => ⟨0, 1, n⟩) Cache.init).1 = 0) ∧
    (((⟨⟨[0, 1], 1, 1⟩, [3]⟩ : RealAlgebraic).signWith (fun _ => 1)
        (fun n => ⟨0, 1, n⟩) Cache.init).1 ≠ 0 →
      (RealAlgebraic.truedivWith (fun _ => 1) (fun n => ⟨0, 1, n⟩) (fun _ _ => [5])
        ⟨⟨[0, 1], 1, 1⟩, [1]⟩ ⟨⟨[0, 1], 1, 1⟩, [3]⟩ Cache.init).1 =
        Except.ok ⟨(⟨⟨[0, 1], 1, 1⟩, [1]⟩ : RealAlgebraic).field,
          (fun _ _ => [5]) (⟨⟨[0, 1], 1, 1⟩, [1]⟩ : RealAlgebraic).coefficients
            (⟨⟨[0, 1], 1, 1⟩, [3]⟩ : RealAlgebraic).coefficients⟩) :=
  C6_truediv_zero_divisor_iff (fun _ => 1) (fun n => ⟨0, 1, n⟩) (fun _ _ => [5])
    ⟨⟨[0, 1], 1, 1⟩, [1]⟩ ⟨⟨[0, 1], 1, 1⟩, [3]⟩ Cache.init
    (by norm_num [reduceCoeffs, trimTrailingZeros])

/-- Claim C9 (amended): `int(a)` computes the interval at precision
`2*int(length+1)` and floor-divides its upper endpoint by the scale: the
result is the floor (rounding toward minus infinity) of the interval's upper
endpoint — not the truncation toward zero of the represented value, from
which it differs on negative non-integers. -/
theorem C9_int_floor_of_upper (lenOf : List ℚ → Nat) (oracle : Nat → Interval)
    (x : RealAlgebraic) (c : Cache) :
    (RealAlgebraic.toIntWith lenOf oracle x c).1 =
      ⌊((RealAlgebraic.intervalWith lenOf oracle x c
          (2 * lenOf x.coefficients)).1.upper : ℝ) /
        10 ^ (RealAlgebraic.intervalWith lenOf oracle x c
          (2 * lenOf x.coefficients)).1.precision⌋ :=
  Interval.toInt_eq_floor
    ((RealAlgebraic.intervalWith lenOf oracle x c (2 * lenOf x.coefficients)).1)

/-- Claim C9 counterexample: in the field QQ[x]/(x - 2) (degree 1, bound 1,
so with the true generator 2 the element height gives `int(length+1) = 1`),
the element `-3/2` computes the interval `[-1.51, -1.50]` — which contains
the exact value `-3/2` — and `int()` returns `-2`, the floor of the upper
endpoint, whereas the integer truncation of `-3/2` (its ceiling, as the value
is negative) is `-1`. -/
theorem C9_counterexample :
    (RealAlgebraic.intervalWith (fun _ => 1) (fun n => Interval.from_integer 2 n)
        ⟨⟨[(-2 : ℚ), 1], 1, 1⟩, [(-3/2 : ℚ)]⟩ Cache.init 2).1 =
      Interval.mk (-151) (-150) 2 ∧
    (Interval.mk (-151) (-150) 2).contains (((-3/2 : ℚ) : ℝ)) ∧
    (RealAlgebraic.toIntWith (fun _ => 1) (fun n => Interval.from_integer 2 n)
        ⟨⟨[(-2 : ℚ), 1], 1, 1⟩, [(-3/2 : ℚ)]⟩ Cache.init).1 = -2 ∧
    listValue 2 [(-3/2 : ℚ)] = -3/2 ∧
    ⌈(-3/2 : ℚ)⌉ = -1 ∧ ((-2 : Int) ≠ -1) := by
  have hn : (-3/2 : ℚ).num = -3 := by norm_num
  have hd : (-3/2 : ℚ).den = 2 := by norm_num
  have hff : ∀ p : Nat, Interval.from_fraction (-3/2 : ℚ) p =
      ⟨Int.fdiv ((-3) * 10 ^ p - 1) 2, Int.fdiv ((-3) * 10 ^ p + 1) 2, p⟩ := by
    intro p
    rw [Interval.from_fraction, hn, hd]
    norm_num
  refine ⟨?_, ?_, ?_, ?_, ?_, by decide⟩
  · simp only [RealAlgebraic.intervalWith, RealNumberField.intervalsWith,
      List.map_cons, List.map_nil]
    rw [hff]
    decide
  · constructor <;> norm_num [Interval.contains]
  · simp only [RealAlgebraic.toIntWith, RealAlgebraic.intervalWith,
      RealNumberField.intervalsWith, List.map_cons, List.map_nil]
    rw [hff]
    decide
  · norm_num [listValue]
  · rw [Int.ceil_eq_iff] <;> norm_num

/-! ### The defining polynomial and linear independence of generator powers

For claims about exact values, a coefficient vector is read as a polynomial
over ℚ and evaluated at a real root `lam` of the field's defining polynomial.
Irreducibility makes a nonzero vector of degree below the field degree have
nonzero value. -/

/-- The polynomial over ℚ with the given coefficient list, constant term
first. -/
noncomputable def listToPoly (cs : List ℚ) : Polynomial ℚ :=
  ∑ i ∈ Finset.range cs.length, Polynomial.C (cs.getD i 0) * Polynomial.X ^ i

lemma listValue_eq_sum (x : ℝ) (cs : List ℚ) :
    listValue x cs = ∑ i ∈ Finset.range cs.length, (cs.getD i 0 : ℝ) * x ^ i := by
  induction cs with
  | nil => simp [listValue]
  | cons c cs ih =>
    rw [listValue, ih]
    rw [List.length_cons, Finset.sum_range_succ']
    simp only [List.getD_cons_succ, List.getD_cons_zero, pow_zero, mul_one, pow_succ]
    rw [Finset.mul_sum, add_comm]
    congr 1
    refine Finset.sum_congr rfl ?_
    intro i hi
    ring

lemma coeff_listToPoly (cs : List ℚ) (i : Nat) :
    (listToPoly cs).coeff i = cs.getD i 0 := by
  rw [listToPoly, Polynomial.finset_sum_coeff]
  simp only [Polynomial.coeff_C_mul, Polynomial.coeff_X_pow, mul_ite, mul_one, mul_zero]
  rw [Finset.sum_ite_eq (Finset.range cs.length) i (fun k => cs.getD k 0)]
  by_cases h : i < cs.length
  · rw [if_pos (Finset.mem_range.mpr h)]
  · rw [if_neg (fun hc => h (Finset.mem_range.mp hc))]
    exact (List.getD_eq_default _ _ (le_of_not_lt h)).symm

lemma aeval_listToPoly (x : ℝ) (cs : List ℚ) :
    Polynomial.aeval x (listToPoly cs) = listValue x cs := by
  rw [listToPoly, map_sum, listValue_eq_sum]
  refine Finset.sum_congr rfl ?_
  intro i hi
  rw [map_mul, map_pow, Polynomial.aeval_C, Polynomial.aeval_X]
  norm_num [eq_ratCast (algebraMap ℚ ℝ)]

lemma natDegree_listToPoly_lt (cs : List ℚ) (d : Nat) (h0 : cs ≠ [])
    (hlen : cs.length ≤ d) : (listToPoly cs).natDegree < d := by
  have h1 : (listToPoly cs).natDegree ≤ cs.length - 1 := by
    rw [listToPoly]
    refine Polynomial.natDegree_sum_le_of_forall_le _ _ ?_
    intro i hi
    refine le_trans (Polynomial.natDegree_C_mul_le _ _) ?_
    rw [Polynomial.natDegree_X_pow]
    have := Finset.mem_range.mp hi
    omega
  have h2 : 0 < cs.length := List.length_pos.mpr h0
  omega

/-- A nonzero polynomial of degree below that of an irreducible polynomial
cannot share a root with it. -/
lemma aeval_ne_zero_of_natDegree_lt {f g : Polynomial ℚ} (hf : Irreducible f)
    {x : ℝ} (hroot : Polynomial.aeval x f = 0) (hg : g ≠ 0)
    (hdeg : g.natDegree < f.natDegree) : Polynomial.aeval x g ≠ 0 := by
  intro hg0
  have hnd : ¬ f ∣ g := fun hdvd =>
    hg (Polynomial.eq_zero_of_dvd_of_natDegree_lt hdvd hdeg)
  obtain ⟨u, v, huv⟩ := (hf.coprime_iff_not_dvd).mpr hnd
  have h1 := congrArg (Polynomial.aeval x) huv
  rw [map_add, map_mul, map_mul, map_one, hroot, hg0, mul_zero, mul_zero,
    add_zero] at h1
  exact zero_ne_one h1

/-- A reduced coefficient vector of length at most the degree of an
irreducible polynomial, whose value at a real root of that polynomial is
zero, is the zero vector `[0]`. -/
lemma reduced_eq_zero_of_value_zero {f : Polynomial ℚ} (hf : Irreducible f)
    {lam : ℝ} (hroot : Polynomial.aeval lam f = 0) {cs : List ℚ}
    (hred : reduceCoeffs cs = cs) (hlen : cs.length ≤ f.natDegree)
    (hval : listValue lam cs = 0) : cs = [0] := by
  have hne : cs ≠ [] := hred ▸ reduceCoeffs_ne_nil cs
  have hg0 : listToPoly cs = 0 := by
    by_contra hg
    exact aeval_ne_zero_of_natDegree_lt hf hroot hg
      (natDegree_listToPoly_lt cs f.natDegree hne hlen)
      (by rw [aeval_listToPoly]; exact hval)
  have hall : ∀ i, cs.getD i 0 = 0 := by
    intro i
    have := coeff_listToPoly cs i
    rw [hg0, Polynomial.coeff_zero] at this
    exact this.symm
  have htrim : trimTrailingZeros cs = [] := trimTrailingZeros_eq_nil_of_all_zero hall
  rw [← hred, reduceCoeffs, if_pos htrim]

/-- Claim C10: if two elements of the same field compare equal — `a == b` is
`(a - b).sign() == 0` — then they have identical reduced coefficient vectors,
and therefore identical hash input data (`__hash__` reads only the
coefficient tuple).  The field's defining polynomial is irreducible with real
root `lam`; `hexact` is the exactness of the sign decision for the difference
(spec section 4.3's guarantee, resting on the external engines — claim C1),
and the remaining hypotheses are the representation invariants every
constructed element satisfies. -/
theorem C10_eq_implies_hash_eq (lenOf : List ℚ → Nat) (oracle : Nat → Interval)
    (lam : ℝ) (x y : RealAlgebraic) (c : Cache)
    (hfield : x.field = y.field)
    (hirr : Irreducible (listToPoly x.field.coefficients))
    (hroot : Polynomial.aeval lam (listToPoly x.field.coefficients) = 0)
    (hxred : reduceCoeffs x.coefficients = x.coefficients)
    (hyred : reduceCoeffs y.coefficients = y.coefficients)
    (hxlen : x.coefficients.length ≤ (listToPoly x.field.coefficients).natDegree)
    (hylen : y.coefficients.length ≤ (listToPoly x.field.coefficients).natDegree)
    (hexact : ((x.sub y).signWith lenOf oracle c).1 = 0 →
      listValue lam (x.sub y).coefficients = 0)
    (heq : (RealAlgebraic.eqWith lenOf oracle x y c).1 = true) :
    x.coefficients = y.coefficients ∧ x.hashData = y.hashData := by
  have hsign : ((x.sub y).signWith lenOf oracle c).1 = 0 := by
    have h1 : decide (((x.sub y).signWith lenOf oracle c).1 = 0) = true := heq
    exact of_decide_eq_true h1
  have hval : listValue lam (x.sub y).coefficients = 0 := hexact hsign
  have hsubc : (x.sub y).coefficients =
      reduceCoeffs (padSum x.coefficients
        (reduceCoeffs (y.coefficients.map (fun q => -q)))) := rfl
  have hsubred : reduceCoeffs (x.sub y).coefficients = (x.sub y).coefficients := by
    rw [hsubc]
    exact reduceCoeffs_idem _
  have hsublen : (x.sub y).coefficients.length ≤
      (listToPoly x.field.coefficients).natDegree := by
    rw [hsubc]
    have hd : 0 < (listToPoly x.field.coefficients).natDegree := hirr.natDegree_pos
    have l1 := length_reduceCoeffs_le (padSum x.coefficients
      (reduceCoeffs (y.coefficients.map (fun q => -q))))
    have l2 := length_padSum x.coefficients
      (reduceCoeffs (y.coefficients.map (fun q => -q)))
    have l3 := length_reduceCoeffs_le (y.coefficients.map (fun q => -q))
    have l4 : (y.coefficients.map (fun q => -q)).length = y.coefficients.length :=
      List.length_map _ _
    omega
  have hzero : (x.sub y).coefficients = [0] :=
    reduced_eq_zero_of_value_zero hirr hroot hsubred hsublen hval
  have hgetD : ∀ i, x.coefficients.getD i 0 = y.coefficients.getD i 0 := by
    intro i
    have h1 : ((x.sub y).coefficients).getD i 0 = 0 := by
      rw [hzero]
      cases i <;> rfl
    rw [hsubc, getD_reduceCoeffs, getD_padSum, getD_reduceCoeffs,
      getD_map_neg] at h1
    linarith
  have hcoef : x.coefficients = y.coefficients := reduced_ext hxred hyred hgetD
  exact ⟨hcoef, by rw [RealAlgebraic.hashData, RealAlgebraic.hashData, hcoef]⟩

/-- Claim C10 witness: in the field QQ[x]/(x - 2) with real root 2, the
element with reduced vector `[3]` compared with itself. -/
theorem C10_witness :
    (⟨⟨[(-2 : ℚ), 1], 1, 1⟩, [(3 : ℚ)]⟩ : RealAlgebraic).coefficients =
      (⟨⟨[(-2 : ℚ), 1], 1, 1⟩, [(3 : ℚ)]⟩ : RealAlgebraic).coefficients ∧
    (⟨⟨[(-2 : ℚ), 1], 1, 1⟩, [(3 : ℚ)]⟩ : RealAlgebraic).hashData =
      (⟨⟨[(-2 : ℚ), 1], 1, 1⟩, [(3 : ℚ)]⟩ : RealAlgebraic).hashData := by
  have hpoly : listToPoly [(-2 : ℚ), 1] = Polynomial.X - Polynomial.C 2 := by
    rw [listToPoly]
    simp [Finset.sum_range_succ, map_neg]
    ring
  have hred : reduceCoeffs [(3 : ℚ)] = [3] := by
    norm_num [reduceCoeffs, trimTrailingZeros]
  have hlen : ([(3 : ℚ)]).length ≤ (listToPoly [(-2 : ℚ), 1]).natDegree := by
    rw [hpoly, Polynomial.natDegree_X_sub_C]
    simp
  have hc2 : reduceCoeffs (padSum [(3 : ℚ)]
      (reduceCoeffs ([(3 : ℚ)].map (fun q => -q)))) = [0] := by
    norm_num [padSum, reduceCoeffs, trimTrailingZeros]
  have hc : (RealAlgebraic.sub ⟨⟨[(-2 : ℚ), 1], 1, 1⟩, [(3 : ℚ)]⟩
      ⟨⟨[(-2 : ℚ), 1], 1, 1⟩, [(3 : ℚ)]⟩).coefficients = [0] := hc2
  have hsubel : RealAlgebraic.sub ⟨⟨[(-2 : ℚ), 1], 1, 1⟩, [(3 : ℚ)]⟩
      ⟨⟨[(-2 : ℚ), 1], 1, 1⟩, [(3 : ℚ)]⟩ =
      ⟨⟨[(-2 : ℚ), 1], 1, 1⟩, [0]⟩ := by
    show (⟨⟨[(-2 : ℚ), 1], 1, 1⟩, reduceCoeffs (padSum [(3 : ℚ)]
      (reduceCoeffs ([(3 : ℚ)].map (fun q => -q))))⟩ : RealAlgebraic) =
      ⟨⟨[(-2 : ℚ), 1], 1, 1⟩, [0]⟩
    rw [RealAlgebraic.mk.injEq]
    exact ⟨rfl, hc2⟩
  have hff0 : ∀ p : Nat, Interval.from_fraction (0 : ℚ) p = ⟨-1, 1, p⟩ := by
    intro p
    rw [Interval.from_fraction]
    norm_num
  refine C10_eq_implies_hash_eq (fun _ => 1) (fun n => Interval.from_integer 2 n)
    2 ⟨⟨[(-2 : ℚ), 1], 1, 1⟩, [3]⟩ ⟨⟨[(-2 : ℚ), 1], 1, 1⟩, [3]⟩ Cache.init rfl
    ?_ ?_ hred hred hlen hlen ?_ ?_
  · rw [hpoly]
    exact Polynomial.irreducible_X_sub_C (2 : ℚ)
  · rw [hpoly]
    simp [map_sub, Polynomial.aeval_X, Polynomial.aeval_C,
      eq_ratCast (algebraMap ℚ ℝ)]
  · intro h0
    rw [hc]
    norm_num [listValue]
  · simp only [RealAlgebraic.eqWith, hsubel, RealAlgebraic.signWith,
      RealAlgebraic.intervalWith, RealNumberField.intervalsWith,
      List.map_cons, List.map_nil]
    rw [hff0]
    decide

/-- Claim C5: for two elements of one field, exactly one of the computed
comparisons `a == b`, `a > b`, `b > a` holds, where `a == b` is
`(a-b).sign() == 0`, `a > b` is `(a-b).sign() == +1` and `b > a` is
`(b-a).sign() == +1` — provided each computed sign is exact for the real
embedding `lam` of the generator (spec section 4.3's guarantee, resting on
the external engines — claim C1).  Exactness enters as the hypotheses
identifying the computed sign values with the ordering of the true values. -/
theorem C5_ordering_trichotomy (lenOf : List ℚ → Nat) (oracle : Nat → Interval)
    (lam : ℝ) (x y : RealAlgebraic) (c : Cache) (hfield : x.field = y.field)
    (hgt : (((x.sub y).signWith lenOf oracle c).1 = 1) ↔
      listValue lam y.coefficients < listValue lam x.coefficients)
    (heq0 : (((x.sub y).signWith lenOf oracle c).1 = 0) ↔
      listValue lam x.coefficients = listValue lam y.coefficients)
    (hlt : (((y.sub x).signWith lenOf oracle c).1 = 1) ↔
      listValue lam x.coefficients < listValue lam y.coefficients) :
    ((RealAlgebraic.eqWith lenOf oracle x y c).1 = true ∧
      (RealAlgebraic.gtWith lenOf oracle x y c).1 = false ∧
      (RealAlgebraic.gtWith lenOf oracle y x c).1 = false) ∨
    ((RealAlgebraic.eqWith lenOf oracle x y c).1 = false ∧
      (RealAlgebraic.gtWith lenOf oracle x y c).1 = true ∧
      (RealAlgebraic.gtWith lenOf oracle y x c).1 = false) ∨
    ((RealAlgebraic.eqWith lenOf oracle x y c).1 = false ∧
      (RealAlgebraic.gtWith lenOf oracle x y c).1 = false ∧
      (RealAlgebraic.gtWith lenOf oracle y x c).1 = true) := by
  have he : (RealAlgebraic.eqWith lenOf oracle x y c).1 =
      decide (((x.sub y).signWith lenOf oracle c).1 = 0) := rfl
  have hg : (RealAlgebraic.gtWith lenOf oracle x y c).1 =
      decide (((x.sub y).signWith lenOf oracle c).1 = 1) := rfl
  have hg2 : (RealAlgebraic.gtWith lenOf oracle y x c).1 =
      decide (((y.sub x).signWith lenOf oracle c).1 = 1) := rfl
  rcases lt_trichotomy (listValue lam x.coefficients) (listValue lam y.coefficients)
    with h | h | h
  · refine Or.inr (Or.inr ⟨?_, ?_, ?_⟩)
    · rw [he, decide_eq_false_iff_not]
      intro h0
      exact absurd (heq0.mp h0) (ne_of_lt h)
    · rw [hg, decide_eq_false_iff_not]
      intro h1
      exact absurd h (not_lt.mpr (le_of_lt (hgt.mp h1)))
    · rw [hg2, decide_eq_true_iff]
      exact hlt.mpr h
  · refine Or.inl ⟨?_, ?_, ?_⟩
    · rw [he, decide_eq_true_iff]
      exact heq0.mpr h
    · rw [hg, decide_eq_false_iff_not]
      intro h1
      have h2 := hgt.mp h1
      rw [h] at h2
      exact absurd h2 (lt_irrefl _)
    · rw [hg2, decide_eq_false_iff_not]
      intro h1
      have h2 := hlt.mp h1
      rw [h] at h2
      exact absurd h2 (lt_irrefl _)
  · refine Or.inr (Or.inl ⟨?_, ?_, ?_⟩)
    · rw [he, decide_eq_false_iff_not]
      intro h0
      exact absurd (heq0.mp h0) (ne_of_gt h)
    · rw [hg, decide_eq_true_iff]
      exact hgt.mpr h
    · rw [hg2, decide_eq_false_iff_not]
      intro h1
      exact absurd h (not_lt.mpr (le_of_lt (hlt.mp h1)))

/-- Claim C5 witness: the elements `1` (vector `[1]`) and `0` (vector `[0]`)
of the field QQ[x]/(x - 2), whose computed signs of both differences are
exact. -/
theorem C5_witness :
    ((RealAlgebraic.eqWith (fun _ => 1) (fun n => Interval.from_integer 2 n)
        ⟨⟨[(-2 : ℚ), 1], 1, 1⟩, [(1 : ℚ)]⟩ ⟨⟨[(-2 : ℚ), 1], 1, 1⟩, [(0 : ℚ)]⟩
        Cache.init).1 = true ∧
      (RealAlgebraic.gtWith (fun _ => 1) (fun n => Interval.from_integer 2 n)
        ⟨⟨[(-2 : ℚ), 1], 1, 1⟩, [(1 : ℚ)]⟩ ⟨⟨[(-2 : ℚ), 1], 1, 1⟩, [(0 : ℚ)]⟩
        Cache.init).1 = false ∧
      (RealAlgebraic.gtWith (fun _ => 1) (fun n => Interval.from_integer 2 n)
        ⟨⟨[(-2 : ℚ), 1], 1, 1⟩, [(0 : ℚ)]⟩ ⟨⟨[(-2 : ℚ), 1], 1, 1⟩, [(1 : ℚ)]⟩
        Cache.init).1 = false) ∨
    ((RealAlgebraic.eqWith (fun _ => 1) (fun n => Interval.from_integer 2 n)
        ⟨⟨[(-2 : ℚ), 1], 1, 1⟩, [(1 : ℚ)]⟩ ⟨⟨[(-2 : ℚ), 1], 1, 1⟩, [(0 : ℚ)]⟩
        Cache.init).1 = false ∧
      (RealAlgebraic.gtWith (fun _ => 1) (fun n => Interval.from_integer 2 n)
        ⟨⟨[(-2 : ℚ), 1], 1, 1⟩, [(1 : ℚ)]⟩ ⟨⟨[(-2 : ℚ), 1], 1, 1⟩, [(0 : ℚ)]⟩
        Cache.init).1 = true ∧
      (RealAlgebraic.gtWith (fun _ => 1) (fun n => Interval.from_integer 2 n)
        ⟨⟨[(-2 : ℚ), 1], 1, 1⟩, [(0 : ℚ)]⟩ ⟨⟨[(-2 : ℚ), 1], 1, 1⟩, [(1 : ℚ)]⟩
        Cache.init).1 = false) ∨
    ((RealAlgebraic.eqWith (fun _ => 1) (fun n => Interval.from_integer 2 n)
        ⟨⟨[(-2 : ℚ), 1], 1, 1⟩, [(1 : ℚ)]⟩ ⟨⟨[(-2 : ℚ), 1], 1, 1⟩, [(0 : ℚ)]⟩
        Cache.init).1 = false ∧
      (RealAlgebraic.gtWith (fun _ => 1) (fun n => Interval.from_integer 2 n)
        ⟨⟨[(-2 : ℚ), 1], 1, 1⟩, [(1 : ℚ)]⟩ ⟨⟨[(-2 : ℚ), 1], 1, 1⟩, [(0 : ℚ)]⟩
        Cache.init).1 = false ∧
      (RealAlgebraic.gtWith (fun _ => 1) (fun n => Interval.from_integer 2 n)
        ⟨⟨[(-2 : ℚ), 1], 1, 1⟩, [(0 : ℚ)]⟩ ⟨⟨[(-2 : ℚ), 1], 1, 1⟩, [(1 : ℚ)]⟩
        Cache.init).1 = true) := by
  have hff1 : ∀ p : Nat, Interval.from_fraction (1 : ℚ) p =
      ⟨10 ^ p - 1, 10 ^ p + 1, p⟩ := by
    intro p
    rw [Interval.from_fraction]
    norm_num
  have hffm1 : ∀ p : Nat, Interval.from_fraction (-1 : ℚ) p =
      ⟨-10 ^ p - 1, -10 ^ p + 1, p⟩ := by
    intro p
    rw [Interval.from_fraction]
    norm_num
  have hsub1 : RealAlgebraic.sub ⟨⟨[(-2 : ℚ), 1], 1, 1⟩, [(1 : ℚ)]⟩
      ⟨⟨[(-2 : ℚ), 1], 1, 1⟩, [(0 : ℚ)]⟩ = ⟨⟨[(-2 : ℚ), 1], 1, 1⟩, [(1 : ℚ)]⟩ := by
    show (⟨⟨[(-2 : ℚ), 1], 1, 1⟩, reduceCoeffs (padSum [(1 : ℚ)]
      (reduceCoeffs ([(0 : ℚ)].map (fun q => -q))))⟩ : RealAlgebraic) =
      ⟨⟨[(-2 : ℚ), 1], 1, 1⟩, [(1 : ℚ)]⟩
    rw [RealAlgebraic.mk.injEq]
    refine ⟨rfl, ?_⟩
    norm_num [padSum, reduceCoeffs, trimTrailingZeros]
  have hsub2 : RealAlgebraic.sub ⟨⟨[(-2 : ℚ), 1], 1, 1⟩, [(0 : ℚ)]⟩
      ⟨⟨[(-2 : ℚ), 1], 1, 1⟩, [(1 : ℚ)]⟩ = ⟨⟨[(-2 : ℚ), 1], 1, 1⟩, [(-1 : ℚ)]⟩ := by
    show (⟨⟨[(-2 : ℚ), 1], 1, 1⟩, reduceCoeffs (padSum [(0 : ℚ)]
      (reduceCoeffs ([(1 : ℚ)].map (fun q => -q))))⟩ : RealAlgebraic) =
      ⟨⟨[(-2 : ℚ), 1], 1, 1⟩, [(-1 : ℚ)]⟩
    rw [RealAlgebraic.mk.injEq]
    refine ⟨rfl, ?_⟩
    norm_num [padSum, reduceCoeffs, trimTrailingZeros]
  have hs1 : ((RealAlgebraic.sub ⟨⟨[(-2 : ℚ), 1], 1, 1⟩, [(1 : ℚ)]⟩
      ⟨⟨[(-2 : ℚ), 1], 1, 1⟩, [(0 : ℚ)]⟩).signWith (fun _ => 1)
      (fun n => Interval.from_integer 2 n) Cache.init).1 = 1 := by
    rw [hsub1]
    simp only [RealAlgebraic.signWith, RealAlgebraic.intervalWith,
      RealNumberField.intervalsWith, List.map_cons, List.map_nil]
    rw [hff1]
    decide
  have hs2 : ((RealAlgebraic.sub ⟨⟨[(-2 : ℚ), 1], 1, 1⟩, [(0 : ℚ)]⟩
      ⟨⟨[(-2 : ℚ), 1], 1, 1⟩, [(1 : ℚ)]⟩).signWith (fun _ => 1)
      (fun n => Interval.from_integer 2 n) Cache.init).1 = -1 := by
    rw [hsub2]
    simp only [RealAlgebraic.signWith, RealAlgebraic.intervalWith,
      RealNumberField.intervalsWith, List.map_cons, List.map_nil]
    rw [hffm1]
    decide
  refine C5_ordering_trichotomy (fun _ => 1) (fun n => Interval.from_integer 2 n)
    2 ⟨⟨[(-2 : ℚ), 1], 1, 1⟩, [(1 : ℚ)]⟩ ⟨⟨[(-2 : ℚ), 1], 1, 1⟩, [(0 : ℚ)]⟩
    Cache.init rfl ?_ ?_ ?_
  · refine iff_of_true hs1 ?_
    norm_num [listValue]
  · refine iff_of_false ?_ ?_
    · rw [hs1]
      decide
    · norm_num [listValue]
  · refine iff_of_false ?_ ?_
    · rw [hs2]
      decide
    · norm_num [listValue]

end RealAlg
